import Mathlib

/-!
Verification of the ShellBuddy terminal assistant (src/shellbuddy.py).

The Python source is shallowly embedded as follows:

* Python strings are modelled as `List Char` (`Chars`) for the text-processing
  core, with `String` wrappers at the interface.  `str.strip()` is `stripList`
  (whitespace = space, tab, CR, LF; the handful of additional Unicode
  whitespace characters Python strips are not modelled).  `str.splitlines()`
  is `splitlines` (splitting on LF, CRLF and CR; the rarer Unicode line
  terminators are not modelled).  `str.split(sep)` is `splitOnChar`.
* The regular-expression search `re.search(r"BLOCKOPEN(.*?)\nTICKS", text,
  re.DOTALL)` (leftmost match, shortest body) is `reMatch`, built on the
  leftmost-occurrence finder `findSub`.
* Python `int(...)` is `pyInt` (optional surrounding whitespace, optional
  sign, ASCII digits with single underscores between digits; non-ASCII
  digits are not modelled).
* Effectful operations (`os.chdir`, `os.getcwd`, `os.path.expanduser`,
  `subprocess.run`) are parametrised by an oracle structure `Sys`; each
  `execute_command` result additionally records the list of operating-system
  calls it made (`SysCall`), so that "the shell subprocess path was / was not
  invoked" is observable.
* The `main` interaction loop is modelled as a state machine: `step` consumes
  one external `Event` (user line, AI reply, AI failure, decision line).
-/

namespace Shellbuddy

abbrev Chars := List Char

/-- `str.strip()` on the left: drop leading whitespace. -/
def stripLeft (s : Chars) : Chars := s.dropWhile Char.isWhitespace

/-- `str.strip()`: drop leading and trailing whitespace. -/
def stripList (s : Chars) : Chars :=
  ((s.dropWhile Char.isWhitespace).reverse.dropWhile Char.isWhitespace).reverse

/-- `str.strip()` at the `String` level. -/
def pyStrip (s : String) : String := (stripList s.toList).asString

/-- `str.lower()` (ASCII case folding; full Unicode folding is not modelled). -/
def pyLower (s : String) : String := (s.toList.map Char.toLower).asString

/-- `str.splitlines()`: split on LF, CRLF or CR, no trailing empty line. -/
def splitlines : Chars → List Chars
  | [] => []
  | '\n' :: rest => [] :: splitlines rest
  | '\r' :: '\n' :: rest => [] :: splitlines rest
  | '\r' :: rest => [] :: splitlines rest
  | c :: rest =>
    match splitlines rest with
    | [] => [[c]]
    | l :: ls => (c :: l) :: ls

/-- `str.split(sep)` for a one-character separator (keeps empty pieces). -/
def splitOnChar (sep : Char) : Chars → List Chars
  | [] => [[]]
  | c :: rest =>
    if c = sep then [] :: splitOnChar sep rest
    else
      match splitOnChar sep rest with
      | [] => [[c]]
      | l :: ls => (c :: l) :: ls

/-- Index of the leftmost occurrence of `pat` in `s` (like `str.find`, as a
regular-expression search for a literal). -/
def findSub (pat : Chars) : Chars → Option Nat
  | [] => if pat.isEmpty then some 0 else none
  | c :: rest =>
    if pat.isPrefixOf (c :: rest) then some 0
    else (findSub pat rest).map (· + 1)

/-- `"\n".join(lines)`. -/
def joinLines : List Chars → Chars
  | [] => []
  | [c] => c
  | c :: c' :: cs => c ++ '\n' :: joinLines (c' :: cs)

/-- The literal "```bash" that `text.split` looks for. -/
def bashLit : Chars := ['`', '`', '`', 'b', 'a', 's', 'h']

/-- The opening part "```bash\n" of the regular expression. -/
def bashOpen : Chars := ['`', '`', '`', 'b', 'a', 's', 'h', '\n']

/-- The closing part "\n```" of the regular expression. -/
def closeFence : Chars := ['\n', '`', '`', '`']

/-- Three backticks. -/
def ticks3 : Chars := ['`', '`', '`']

/-- The leftmost, shortest match of the fenced-block regular expression:
start index of the opening fence together with the block body.  A match
starts at the first occurrence of `bashOpen` and its body runs to the first
occurrence of `closeFence` after it (if the first `bashOpen` has no later
`closeFence`, no later one has either, so the whole search fails). -/
def reMatch (s : Chars) : Option (Nat × Chars) :=
  match findSub bashOpen s with
  | none => none
  | some i =>
    match findSub closeFence (s.drop (i + bashOpen.length)) with
    | none => none
    | some j => some (i, (s.drop (i + bashOpen.length)).take j)

/-- `text.split(pat)[0]`: everything before the first occurrence of `pat`
(the whole string when `pat` does not occur). -/
def pySplitHead (pat s : Chars) : Chars :=
  match findSub pat s with
  | some i => s.take i
  | none => s

/-- The command pipeline applied to a matched block body:
`commands_str = body.strip()`; then the stripped non-empty lines. -/
def commandLines (body : Chars) : List Chars :=
  ((splitlines (stripList body)).map stripList).filter (· ≠ [])

/-- Core of `parse_ai_response` on character lists. -/
def parseCore (s : Chars) : Chars × List Chars :=
  match reMatch s with
  | some (_, body) => (stripList (pySplitHead bashLit s), commandLines body)
  | none => (stripList s, [])

/-- `parse_ai_response(text)`: split the AI response into an explanation and
a list of commands (src/shellbuddy.py lines 142-151). -/
def parse_ai_response (text : String) : String × List String :=
  ((parseCore text.toList).1.asString, (parseCore text.toList).2.map List.asString)

/-- Reconstruction of a response from a parse result: the explanation
followed by a rebuilt bash fence containing the commands (the spec's
"parsing idempotence" reconstruction). -/
def reconstructCore (e : Chars) (cmds : List Chars) : Chars :=
  e ++ '\n' :: (bashOpen ++ (joinLines cmds ++ closeFence))

/-- `String`-level reconstruction for the idempotence claim. -/
def reconstruct (explanation : String) (commands : List String) : String :=
  (reconstructCore explanation.toList (commands.map String.toList)).asString

/-- The text contains at most one fenced block: either no match, or the
first match is the only one (the `re.findall` continuation after the first
match finds nothing). -/
def atMostOneBlock (s : Chars) : Bool :=
  match reMatch s with
  | none => true
  | some (i, body) =>
    (reMatch (s.drop (i + bashOpen.length + body.length + closeFence.length))).isNone

/-- Declarative leftmost-occurrence search, used by the specification-side
parser: the least index (tried in increasing order) where `pat` occurs. -/
def firstOccurrence (pat s : Chars) : Option Nat :=
  (List.range (s.length + 1)).find? (fun i => pat.isPrefixOf (s.drop i))

/-- Declarative leftmost occurrence at or after position `k`. -/
def firstOccurrenceFrom (pat s : Chars) (k : Nat) : Option Nat :=
  (List.range (s.length + 1)).find? (fun i => decide (k ≤ i) && pat.isPrefixOf (s.drop i))

/-- Specification-side parser, following claim C2's words: when the text
contains a fenced block, the explanation is everything before the start of
the first such block (trimmed), and the commands come from the block body;
otherwise the whole trimmed text is the explanation. -/
def parse_ai_response_spec (text : String) : String × List String :=
  match firstOccurrence bashOpen text.toList with
  | none => ((stripList text.toList).asString, [])
  | some i =>
    match firstOccurrenceFrom closeFence text.toList (i + bashOpen.length) with
    | none => ((stripList text.toList).asString, [])
    | some j =>
      ((stripList (text.toList.take i)).asString,
        (commandLines ((text.toList.take j).drop (i + bashOpen.length))).map List.asString)

/-- Amended specification-side parser: as `parse_ai_response_spec`, except
that the explanation is everything before the first occurrence of the
literal "```bash" (which may lie before the first complete block). -/
def parse_ai_response_amended (text : String) : String × List String :=
  match firstOccurrence bashOpen text.toList with
  | none => ((stripList text.toList).asString, [])
  | some i =>
    match firstOccurrenceFrom closeFence text.toList (i + bashOpen.length) with
    | none => ((stripList text.toList).asString, [])
    | some j =>
      ((stripList (text.toList.take ((firstOccurrence bashLit text.toList).getD
          text.toList.length))).asString,
        (commandLines ((text.toList.take j).drop (i + bashOpen.length))).map List.asString)

/-! ## Selection parser -/

/-- Parse a run of ASCII digits possibly containing single underscores
between digits (Python `int` literal body), accumulating into `acc`. -/
def pyDigits : Chars → Nat → Option Nat
  | [], acc => some acc
  | '_' :: c :: rest, acc =>
    if c.isDigit then pyDigits rest (acc * 10 + (c.toNat - 48)) else none
  | c :: rest, acc =>
    if c.isDigit then pyDigits rest (acc * 10 + (c.toNat - 48)) else none

/-- A non-empty digit run (first character must be a digit). -/
def pyIntDigits : Chars → Option Nat
  | [] => none
  | c :: rest => if c.isDigit then pyDigits rest (c.toNat - 48) else none

/-- Python `int(s)`: strip whitespace, optional sign, ASCII digits with
underscores between digits (non-ASCII digits are not modelled). -/
def pyInt (s : Chars) : Option Int :=
  match stripList s with
  | '+' :: rest => (pyIntDigits rest).map Int.ofNat
  | '-' :: rest => (pyIntDigits rest).map (fun n => -(n : Int))
  | rest => (pyIntDigits rest).map Int.ofNat

/-- The Python `set` of indices, modelled as a duplicate-free list (the
set's iteration order is irrelevant because the result is sorted at the
end): `set.add`. -/
def setAdd (acc : List Nat) (x : Nat) : List Nat :=
  if x ∈ acc then acc else acc ++ [x]

/-- `set.update(iterable)`: add every element. -/
def setUpdate (acc : List Nat) (xs : List Nat) : List Nat :=
  xs.foldl setAdd acc

/-- Python `range(a, b)` over non-negative integers, as a list of `Nat`. -/
def rangeList (a b : Int) : List Nat :=
  (List.range (b - a).toNat).map fun k => a.toNat + k

/-- One iteration of the loop body of `parse_selection` (src/shellbuddy.py
lines 179-192): the running `indices` set updated by one comma-separated
part.  `indices.update(range(start-1, end))` adds an interval,
`indices.add(num-1)` adds one element; a `ValueError` (unparseable integer,
or a `split('-')` result that does not unpack into exactly two values)
drops the part. -/
def selection_step (max_num : Nat) (indices : List Nat) (part0 : Chars) : List Nat :=
  let part := stripList part0
  if part.contains '-' then
    match splitOnChar '-' part with
    | [a, b] =>
      match pyInt a, pyInt b with
      | some start, some stop =>
        if 1 ≤ start ∧ start ≤ stop ∧ stop ≤ (max_num : Int) then
          setUpdate indices (rangeList (start - 1) stop)
        else indices
      | _, _ => indices
    | _ => indices
  else
    match pyInt part with
    | some num =>
      if 1 ≤ num ∧ num ≤ (max_num : Int) then setAdd indices (num - 1).toNat
      else indices
    | none => indices

/-- `parse_selection(selection_str, max_num)` (src/shellbuddy.py lines
175-193): fold the step over the comma-separated parts starting from the
empty set, then `sorted(list(indices))`. -/
def parse_selection (selection_str : String) (max_num : Nat) : List Nat :=
  List.insertionSort (· ≤ ·)
    ((splitOnChar ',' selection_str.toList).foldl (selection_step max_num) [])

/-- Specification-side index set contributed by a single part (claim C5's
description of which parts are dropped): a range part `a-b` contributes the
zero-based interval when `1 ≤ a ≤ b ≤ max_num`, a single number `n`
contributes `{n-1}` when `1 ≤ n ≤ max_num`, and every other part
contributes nothing. -/
def part_index_set (max_num : Nat) (part0 : Chars) : List Nat :=
  let part := stripList part0
  if part.contains '-' then
    match splitOnChar '-' part with
    | [a, b] =>
      match pyInt a, pyInt b with
      | some start, some stop =>
        if 1 ≤ start ∧ start ≤ stop ∧ stop ≤ (max_num : Int) then
          rangeList (start - 1) stop
        else []
      | _, _ => []
    | _ => []
  else
    match pyInt part with
    | some num =>
      if 1 ≤ num ∧ num ≤ (max_num : Int) then [(num - 1).toNat] else []
    | none => []

/-! ## Command executor -/

/-- The argument record of the `subprocess.run` invocation in
`execute_command`: the command string and the keyword arguments used at
src/shellbuddy.py lines 165-167 (`shell=True, text=True,
capture_output=True, timeout=30, stdin=subprocess.DEVNULL`). -/
structure SubprocessCall where
  cmd : String
  shell : Bool
  text : Bool
  capture_output : Bool
  timeout : Nat
  stdin_devnull : Bool
deriving DecidableEq

/-- Possible outcomes of `subprocess.run`: normal completion with captured
stdout and stderr, `subprocess.TimeoutExpired`, or any other exception. -/
inductive RunOutcome where
  | completed (stdout stderr : String)
  | timedOut
  | failed (err : String)
deriving DecidableEq

/-- Operating-system calls `execute_command` can make, recorded as a trace:
a direct working-directory change (`os.chdir`) with its target path, or a
shell subprocess invocation. -/
inductive SysCall where
  | chdir (target : String)
  | subprocess (call : SubprocessCall)
deriving DecidableEq

/-- Oracle for the effectful operations: `os.path.expanduser`, `os.chdir`
(given the current directory and the target, either an error message or the
new `os.getcwd()` result; a failing `os.chdir` raises without changing the
directory), and `subprocess.run`. -/
structure Sys where
  expanduser : String → String
  chdir : String → String → Except String String
  run : SubprocessCall → RunOutcome

/-- The result of `execute_command`: the returned message, the process
working directory afterwards, and the operating-system calls made. -/
structure ExecResult where
  message : String
  cwd : String
  calls : List SysCall
deriving DecidableEq

/-- `execute_command(command)` (src/shellbuddy.py lines 153-173), relative
to a current working directory and a `Sys` oracle.  A command whose
stripped form starts with "cd " changes the directory via `os.chdir`
(target: the rest of the command, stripped, defaulting to "~" if empty,
then `~`-expanded); every other command is run through
`subprocess.run(command, shell=True, text=True, capture_output=True,
timeout=30, stdin=subprocess.DEVNULL)`. -/
def execute_command (sys : Sys) (cwd : String) (command0 : String) : ExecResult :=
  let command := stripList command0.toList
  if ['c', 'd', ' '].isPrefixOf command then
    let t := stripList (command.drop 3)
    let target_dir := if t = [] then ['~'] else t
    let expanded_dir := sys.expanduser target_dir.asString
    match sys.chdir cwd expanded_dir with
    | .ok newCwd =>
      { message := "✅ (Working directory changed to: " ++ newCwd ++ ")"
        cwd := newCwd
        calls := [.chdir expanded_dir] }
    | .error e =>
      { message := "⚠️ Error in \x27cd\x27: " ++ e
        cwd := cwd
        calls := [.chdir expanded_dir] }
  else
    let call : SubprocessCall :=
      { cmd := command.asString, shell := true, text := true,
        capture_output := true, timeout := 30, stdin_devnull := true }
    match sys.run call with
    | .completed out err =>
      let output := pyStrip (pyStrip out ++ "\n" ++ pyStrip err)
      { message := if output = "" then "✅ (Command executed, no output)" else output
        cwd := cwd
        calls := [.subprocess call] }
    | .timedOut =>
      { message := "⚠️ Command \x27" ++ command.asString ++ "\x27 timed out (waiting for input?)"
        cwd := cwd
        calls := [.subprocess call] }
    | .failed e =>
      { message := "⚠️ Execution error: " ++ e
        cwd := cwd
        calls := [.subprocess call] }

/-! ## Conversation state and AI backend payloads -/

/-- One entry of `chat_history`: `{'role': ..., 'parts': [...]}`. -/
structure Turn where
  role : String
  parts : List String
deriving DecidableEq

/-- The fixed system instruction (src/shellbuddy.py lines 97-118),
parametrised by the detected distribution string that the Python f-string
interpolates. -/
def SYSTEM_PROMPT (distro : String) : String :=
  "\nYou are \x27Companion\x27, an expert AI Linux assistant operating inside a terminal.\nYou communicate in **English**.\nYour goal is to guide the user step-by-step to solve their tasks, like an interactive shell expert.\n\nYOUR WORKFLOW IS A LOOP:\n1.  The user (USER) provides a task or problem.\n2.  You respond (AI) with a **brief explanation** of your thinking and propose the *next* logical command(s) inside a ```bash code block.\n3.  The script executes the command and provides the output (TOOL_OUTPUT).\n4.  You analyze this output, provide a *new* explanation (AI), and propose the *next* command in a ```bash code block.\n5.  Repeat this (explanation, command, output, explanation, command, output...) until the task is solved.\n6.  When the task is solved or you have no more commands, provide a final report and an **empty** ```bash code block.\n7.  If the user interrupts with a chat message instead of a command confirmation, that message will appear in the input. Respond to it appropriately.\n\nRULES:\n- Your response MUST ALWAYS consist of: Explanation (Markdown) FOLLOWED BY a code block (```bash ... ```).\n- Propose commands step-by-step. One logical action per turn.\n- Use \x27sudo\x27 where necessary.\n- The \x27cd\x27 command is supported.\n- DO NOT use interactive commands (like \x27sudo -i\x27, \x27nano\x27, \x27vim\x27, or those requiring runtime input).\n- Current Linux distribution: " ++ distro ++ "\n"

/-- The history payload sent to the Gemini backend in `get_ai_response`
(src/shellbuddy.py line 124): the full conversation, rebuilt entry by
entry. -/
def gemini_history (chat_history : List Turn) : List Turn :=
  chat_history.map fun h => { role := h.role, parts := h.parts }

/-- The message list sent to the OpenAI backend in `get_ai_response`
(src/shellbuddy.py lines 129-131): the system instruction followed by the
full conversation as `(role, content)` pairs, the content being the first
element of each turn's parts (every turn the loop appends has exactly one
part; `headD` models the `h['parts'][0]` access). -/
def openai_messages (distro : String) (chat_history : List Turn) : List (String × String) :=
  ("system", SYSTEM_PROMPT distro) :: chat_history.map fun h => (h.role, h.parts.headD "")

/-! ## Turn orchestrator -/

/-- Result of handling one decision-phase input: the conversation after any
appends, the working directory, and the commands actually executed. -/
structure StepResult where
  history : List Turn
  cwd : String
  executed : List String
deriving DecidableEq

/-- The execution loop at src/shellbuddy.py lines 250-263: run each command
in order (later commands see earlier directory changes), collecting the
"$ command\noutput" blocks. -/
def run_commands (sys : Sys) (cwd : String) (to_execute : List String) :
    String × List String :=
  to_execute.foldl
    (fun acc cmd =>
      let r := execute_command sys acc.1 cmd
      (r.cwd, acc.2 ++ ["$ " ++ cmd ++ "\n" ++ r.message]))
    (cwd, [])

/-- The tail of the decision branch (src/shellbuddy.py lines 250-266): if
there is anything to execute, run it and append the single TOOL_OUTPUT turn
joining all blocks; otherwise nothing is appended here. -/
def finishExec (sys : Sys) (cwd : String) (history : List Turn)
    (to_execute : List String) : StepResult :=
  if to_execute = [] then { history := history, cwd := cwd, executed := [] }
  else
    let r := run_commands sys cwd to_execute
    { history := history ++
        [{ role := "user", parts := ["TOOL_OUTPUT:\n" ++ String.intercalate "\n" r.2] }]
      cwd := r.1
      executed := to_execute }

/-- Handling of one line read at the decision prompt (src/shellbuddy.py
lines 232-266).  `Prompt.ask(..., default="y")` returns "y" for an empty
line, and the result is lowercased.  "y"/"yes" executes everything,
"n"/"no" appends the skip TOOL_OUTPUT turn, a non-empty selection executes
that subset in ascending index order (`commands.getD i ""` models
`commands[i]`, whose indices are always in range), and anything else is an
interrupt: the (lowercased) input is appended as a new user turn. -/
def decisionStep (sys : Sys) (cwd : String) (history : List Turn)
    (commands : List String) (rawInput : String) : StepResult :=
  let keuze := pyLower (if rawInput = "" then "y" else rawInput)
  if keuze = "y" ∨ keuze = "yes" then
    finishExec sys cwd history commands
  else if keuze = "n" ∨ keuze = "no" then
    { history := history ++
        [{ role := "user", parts := ["TOOL_OUTPUT:\n(Commands skipped by user)"] }]
      cwd := cwd
      executed := [] }
  else
    let selected_indices := parse_selection keuze commands.length
    if selected_indices = [] then
      { history := history ++ [{ role := "user", parts := [keuze] }]
        cwd := cwd
        executed := [] }
    else
      finishExec sys cwd history (selected_indices.map (fun i => commands.getD i ""))

/-- The phases of the orchestrator loop. -/
inductive Phase where
  | awaitingInput
  | aiWorking
  | awaitingDecision (commands : List String)
  | finished
deriving DecidableEq

/-- The orchestrator state: phase, conversation, working directory. -/
structure MState where
  phase : Phase
  history : List Turn
  cwd : String
deriving DecidableEq

/-- External events driving the loop: a line at the outer prompt, a
successful AI backend reply, an exception from the AI backend, or a line at
the decision prompt. -/
inductive Event where
  | userLine (s : String)
  | aiReply (s : String)
  | aiFailure
  | decisionLine (s : String)

/-- One transition of the `main` loop (src/shellbuddy.py lines 196-270).
At the outer prompt, "exit"/"quit" (case-insensitive) ends the session and
any other line is appended as a user turn before calling the AI.  A
successful AI reply is appended as a model turn; with no parsed commands
the turn is complete, otherwise the loop waits for a decision.  A backend
exception returns to the outer prompt without appending.  A decision line
is handled by `decisionStep` and the loop returns to the AI.  An event that
does not match the current phase leaves the state unchanged. -/
def step (sys : Sys) (st : MState) (e : Event) : MState :=
  match st.phase, e with
  | .awaitingInput, .userLine s =>
    if pyLower s = "exit" ∨ pyLower s = "quit" then { st with phase := .finished }
    else { phase := .aiWorking,
           history := st.history ++ [{ role := "user", parts := [s] }],
           cwd := st.cwd }
  | .aiWorking, .aiReply text =>
    let commands := (parse_ai_response text).2
    let history := st.history ++ [{ role := "model", parts := [text] }]
    if commands = [] then { phase := .awaitingInput, history := history, cwd := st.cwd }
    else { phase := .awaitingDecision commands, history := history, cwd := st.cwd }
  | .aiWorking, .aiFailure => { st with phase := .awaitingInput }
  | .awaitingDecision commands, .decisionLine s =>
    let r := decisionStep sys st.cwd st.history commands s
    { phase := .aiWorking, history := r.history, cwd := r.cwd }
  | _, _ => st

/-- A run of the loop over a list of events. -/
def run (sys : Sys) (st : MState) (events : List Event) : MState :=
  events.foldl (step sys) st

/-! ## Sanity checks (the spec's end-to-end scenarios) -/

example : parse_ai_response "Do X.\n```bash\nls -la\npwd\n```" =
    ("Do X.", ["ls -la", "pwd"]) := by decide

example : parse_ai_response "All done!" = ("All done!", []) := by decide

example : parse_selection "1,3-4" 5 = [0, 2, 3] := by decide

example : parse_selection "" 5 = [] := by decide

example : parse_selection "3-1,0,7,x" 5 = [] := by decide

/-! ## Selection parser: supporting lemmas -/

theorem mem_setAdd {acc : List Nat} {x y : Nat} :
    y ∈ setAdd acc x ↔ y ∈ acc ∨ y = x := by
  unfold setAdd
  split
  · rename_i h
    constructor
    · exact fun hy => Or.inl hy
    · rintro (hy | rfl)
      · exact hy
      · exact h
  · simp

theorem nodup_setAdd {acc : List Nat} (h : acc.Nodup) (x : Nat) :
    (setAdd acc x).Nodup := by
  unfold setAdd
  split
  · exact h
  · rename_i hx
    simpa [List.nodup_append] using ⟨h, hx⟩

theorem mem_setUpdate {xs : List Nat} : ∀ {acc y}, y ∈ setUpdate acc xs ↔ y ∈ acc ∨ y ∈ xs := by
  induction xs with
  | nil => simp [setUpdate]
  | cons x xs ih =>
    intro acc y
    show y ∈ setUpdate (setAdd acc x) xs ↔ _
    rw [ih, mem_setAdd]
    simp
    tauto

theorem nodup_setUpdate {xs : List Nat} : ∀ {acc : List Nat}, acc.Nodup → (setUpdate acc xs).Nodup := by
  induction xs with
  | nil => exact fun h => h
  | cons x xs ih => exact fun h => ih (nodup_setAdd h x)

theorem mem_rangeList {a b : Int} {i : Nat} (ha : 0 ≤ a) :
    i ∈ rangeList a b ↔ a ≤ (i : Int) ∧ (i : Int) < b := by
  simp only [rangeList, List.mem_map, List.mem_range]
  constructor
  · rintro ⟨k, hk, rfl⟩
    omega
  · intro h
    exact ⟨i - a.toNat, by omega, by omega⟩

theorem mem_selection_step {max_num : Nat} {acc : List Nat} {part : Chars} {y : Nat} :
    y ∈ selection_step max_num acc part ↔ y ∈ acc ∨ y ∈ part_index_set max_num part := by
  simp only [selection_step, part_index_set]
  split
  · split
    · rename_i a b heq
      rcases ha : pyInt a with _ | start <;> rcases hb : pyInt b with _ | stop <;>
        simp only [ha, hb]
      · simp
      · simp
      · simp
      · split
        · exact mem_setUpdate
        · simp
    · simp
  · rcases hp : pyInt (stripList part) with _ | num <;> simp only [hp]
    · simp
    · split
      · exact mem_setAdd.trans (by simp)
      · simp

theorem nodup_selection_step {max_num : Nat} {acc : List Nat} {part : Chars}
    (h : acc.Nodup) : (selection_step max_num acc part).Nodup := by
  simp only [selection_step]
  split
  · split
    · rename_i a b heq
      rcases ha : pyInt a with _ | start <;> rcases hb : pyInt b with _ | stop <;>
        simp only [ha, hb] <;> try exact h
      split
      · exact nodup_setUpdate h
      · exact h
    · exact h
  · rcases hp : pyInt (stripList part) with _ | num <;> simp only [hp]
    · exact h
    · split
      · exact nodup_setAdd h _
      · exact h

theorem mem_part_index_set_lt {max_num : Nat} {part : Chars} {y : Nat}
    (h : y ∈ part_index_set max_num part) : y < max_num := by
  simp only [part_index_set] at h
  split at h
  · split at h
    · rename_i a b heq
      rcases ha : pyInt a with _ | start <;> rcases hb : pyInt b with _ | stop <;>
        simp only [ha, hb] at h
      · simp at h
      · simp at h
      · simp at h
      · split at h
        · rename_i hcond
          rw [mem_rangeList (by omega)] at h
          omega
        · simp at h
    · simp at h
  · rcases hp : pyInt (stripList part) with _ | num <;> simp only [hp] at h
    · simp at h
    · split at h
      · rename_i hcond
        simp only [List.mem_singleton] at h
        omega
      · simp at h

theorem mem_selection_foldl {max_num : Nat} {parts : List Chars} :
    ∀ {acc y}, y ∈ parts.foldl (selection_step max_num) acc ↔
      y ∈ acc ∨ ∃ p ∈ parts, y ∈ part_index_set max_num p := by
  induction parts with
  | nil => simp
  | cons p parts ih =>
    intro acc y
    show y ∈ parts.foldl (selection_step max_num) (selection_step max_num acc p) ↔ _
    rw [ih, mem_selection_step]
    simp
    tauto

theorem nodup_selection_foldl {max_num : Nat} {parts : List Chars} :
    ∀ {acc : List Nat}, acc.Nodup → (parts.foldl (selection_step max_num) acc).Nodup := by
  induction parts with
  | nil => exact fun h => h
  | cons p parts ih => exact fun h => ih (nodup_selection_step h)

theorem parse_selection_nodup (s : String) (max_num : Nat) :
    (parse_selection s max_num).Nodup :=
  ((List.perm_insertionSort _ _).nodup_iff).2 (nodup_selection_foldl List.nodup_nil)

theorem mem_parse_selection {s : String} {max_num y : Nat} :
    y ∈ parse_selection s max_num ↔
      ∃ p ∈ splitOnChar ',' s.toList, y ∈ part_index_set max_num p := by
  unfold parse_selection
  rw [(List.perm_insertionSort _ _).mem_iff, mem_selection_foldl]
  simp

/-! ## Claims C3 and C5: the selection parser's invariants -/

/-- C3: every index produced by `parse_selection` lies in `[0, max_num)`,
and the produced list is strictly ascending (hence duplicate-free). -/
theorem claim_c3_selection_bounds (s : String) (max_num : Nat) :
    (∀ i ∈ parse_selection s max_num, i < max_num) ∧
      List.Sorted (· < ·) (parse_selection s max_num) := by
  constructor
  · intro i hi
    obtain ⟨p, _, hp⟩ := mem_parse_selection.1 hi
    exact mem_part_index_set_lt hp
  · exact (List.sorted_insertionSort _ _).lt_of_le (parse_selection_nodup s max_num)

/-- Witness for C3 at the spec's own example `"1,3-4"`, `max_num = 5`. -/
theorem claim_c3_selection_bounds_witness :
    2 ∈ parse_selection "1,3-4" 5 ∧ 2 < 5 :=
  ⟨by decide, (claim_c3_selection_bounds "1,3-4" 5).1 2 (by decide)⟩

/-- C5: the parts of the selection string contribute independently — an
index is produced exactly when some comma-separated part contributes it —
and the result is the sorted duplicate-free union of the per-part index
sets.  Determinism is immediate because `parse_selection` is a function of
its two arguments. -/
theorem claim_c5_selection_union (s : String) (max_num : Nat) :
    (∀ i, i ∈ parse_selection s max_num ↔
        ∃ p ∈ splitOnChar ',' s.toList, i ∈ part_index_set max_num p) ∧
      parse_selection s max_num =
        List.insertionSort (· ≤ ·)
          (((splitOnChar ',' s.toList).map (part_index_set max_num)).flatten.dedup) := by
  refine ⟨fun i => mem_parse_selection, ?_⟩
  refine List.eq_of_perm_of_sorted ?_ (List.sorted_insertionSort _ _)
    (List.sorted_insertionSort _ _)
  refine ((List.perm_insertionSort _ _).trans ?_).trans
    (List.perm_insertionSort _ _).symm
  refine (List.perm_ext_iff_of_nodup (nodup_selection_foldl List.nodup_nil)
    (List.nodup_dedup _)).2 ?_
  intro a
  rw [List.mem_dedup, List.mem_flatten]
  rw [mem_selection_foldl]
  simp

/-- Witness for C5 at `"1,3-4"`, `max_num = 5`. -/
theorem claim_c5_selection_union_witness :
    2 ∈ parse_selection "1,3-4" 5 ↔
      ∃ p ∈ splitOnChar ',' ("1,3-4" : String).toList, 2 ∈ part_index_set 5 p :=
  (claim_c5_selection_union "1,3-4" 5).1 2

/-! ## Stripping: supporting lemmas -/

theorem head?_dropWhile_not (p : Char → Bool) :
    ∀ (l : Chars) {c : Char}, (l.dropWhile p).head? = some c → ¬ p c := by
  intro l
  induction l with
  | nil => intro c h; simp [List.dropWhile] at h
  | cons a t ih =>
    intro c h
    rw [List.dropWhile_cons] at h
    split at h
    · exact ih h
    · rename_i hpa
      simp only [List.head?_cons, Option.some.injEq] at h
      subst h
      exact hpa

theorem mem_of_getLast?_eq {l : Chars} {a : Char} (h : l.getLast? = some a) : a ∈ l := by
  obtain ⟨hne, rfl⟩ := List.mem_getLast?_eq_getLast (by rw [h]; rfl)
  exact List.getLast_mem hne

/-- A stripped list has no trailing whitespace to drop. -/
theorem stripList_reverse_dropWhile (l : Chars) :
    (stripList l).reverse.dropWhile Char.isWhitespace = (stripList l).reverse := by
  unfold stripList
  rw [List.reverse_reverse, List.dropWhile_idempotent]

/-- The last character of a stripped list is not whitespace. -/
theorem stripList_getLast_not_ws {l : Chars} {c : Char}
    (h : (stripList l).getLast? = some c) : ¬ c.isWhitespace := by
  rw [← List.head?_reverse, ← stripList_reverse_dropWhile] at h
  exact head?_dropWhile_not _ _ h

/-- A list containing a non-whitespace character does not strip to nothing. -/
theorem stripList_ne_nil_of_mem {l : Chars} {c : Char} (hc : c ∈ l)
    (hw : ¬ c.isWhitespace) : stripList l ≠ [] := by
  intro h
  unfold stripList at h
  rw [List.reverse_eq_nil_iff, List.dropWhile_eq_nil_iff] at h
  have hall : ∀ x ∈ l.dropWhile Char.isWhitespace, x.isWhitespace := by
    intro x hx
    exact h x (by simpa using hx)
  have hl := List.takeWhile_append_dropWhile (p := Char.isWhitespace) (l := l)
  rw [← hl] at hc
  rcases List.mem_append.1 hc with hc | hc
  · exact hw (List.mem_takeWhile_imp hc)
  · exact hw (hall c hc)

/-- Stripping is right-invariant under appends handled elsewhere; here: the
remainder of a stripped "cd "-command is never empty, so the home-directory
default `or "~"` in `execute_command` is unreachable. -/
theorem cd_target_ne_nil {command : String}
    (h : ['c', 'd', ' '] <+: stripList command.toList) :
    stripList ((stripList command.toList).drop 3) ≠ [] := by
  obtain ⟨r, hr⟩ := h
  rcases List.eq_nil_or_concat r with rfl | ⟨r', c, rfl⟩
  · exfalso
    have h1 := stripList_reverse_dropWhile command.toList
    rw [← hr] at h1
    simp [List.dropWhile] at h1
  · have hlast : (stripList command.toList).getLast? = some c := by
      rw [← hr]
      rw [List.getLast?_append_of_ne_nil _ (by simp)]
      simp
    have hcw : ¬ c.isWhitespace := stripList_getLast_not_ws hlast
    have hdrop : (stripList command.toList).drop 3 = r' ++ [c] := by
      rw [← hr]
      simp [List.concat_eq_append]
    rw [hdrop]
    exact stripList_ne_nil_of_mem (by simp) hcw

/-! ## Command executor: a concrete oracle for witnesses -/

/-- A concrete `Sys` oracle used in witnesses and counterexamples:
`expanduser` is the identity, changing directory to "/nonexistent" fails
with an ENOENT-style message and any other change succeeds, and running
"sleep 60" times out while any other command completes silently. -/
def sysDemo : Sys where
  expanduser := id
  chdir := fun _ target =>
    if target = "/nonexistent" then
      .error "[Errno 2] No such file or directory: \x27/nonexistent\x27"
    else .ok target
  run := fun call => if call.cmd = "sleep 60" then .timedOut else .completed "" ""

/-! ## Claim C1: `cd` handling -/

/-- C1 counterexample: executing the bare word "cd" does invoke the shell
subprocess path (the branch tests `command.startswith("cd ")` after
stripping, which "cd" fails), so it neither changes the working directory
directly nor falls back to the home directory. -/
theorem claim_c1_counterexample :
    (execute_command sysDemo "/home/user" "cd").calls =
      [SysCall.subprocess
        { cmd := "cd", shell := true, text := true, capture_output := true,
          timeout := 30, stdin_devnull := true }] ∧
    (execute_command sysDemo "/home/user" "cd").cwd = "/home/user" := by
  constructor <;> rfl

/-- C1 (amended): for every command whose stripped form begins with the
prefix "cd ", `execute_command` does not invoke the shell subprocess path:
its only operating-system call is a direct `os.chdir` to the
`~`-expansion of the (stripped, necessarily non-empty, so the
home-directory default is unreachable) argument, and on success it returns
the success-marked message naming the new working directory.  The bare word
"cd" is instead passed to the shell subprocess. -/
theorem claim_c1_cd_direct (sys : Sys) (cwd command : String)
    (h : ['c', 'd', ' '] <+: stripList command.toList) :
    (execute_command sys cwd command).calls =
      [SysCall.chdir (sys.expanduser
        (stripList ((stripList command.toList).drop 3)).asString)] ∧
    stripList ((stripList command.toList).drop 3) ≠ [] ∧
    (∀ d, sys.chdir cwd (sys.expanduser
        (stripList ((stripList command.toList).drop 3)).asString) = .ok d →
      (execute_command sys cwd command).message =
          "✅ (Working directory changed to: " ++ d ++ ")" ∧
        (execute_command sys cwd command).cwd = d) := by
  have hne := cd_target_ne_nil h
  have hpre : ['c', 'd', ' '].isPrefixOf (stripList command.toList) = true :=
    List.isPrefixOf_iff_prefix.2 h
  simp only [execute_command]
  simp only [if_pos hpre, if_neg hne]
  refine ⟨?_, hne, ?_⟩
  · split <;> rfl
  · intro d hd
    rw [hd]
    exact ⟨rfl, rfl⟩

/-- Witness for C1 (amended) at the command "cd /tmp" under `sysDemo`. -/
theorem claim_c1_cd_direct_witness :
    (['c', 'd', ' '] <+: stripList ("cd /tmp" : String).toList) ∧
    (execute_command sysDemo "/home/user" "cd /tmp").message =
      "✅ (Working directory changed to: /tmp)" :=
  ⟨⟨['/', 't', 'm', 'p'], by decide⟩,
    ((claim_c1_cd_direct sysDemo "/home/user" "cd /tmp"
      ⟨['/', 't', 'm', 'p'], by decide⟩).2.2 "/tmp" rfl).1⟩

/-! ## Claim C7: non-cd commands run through the shell with a 30 s timeout -/

/-- C7: every command other than a `cd` command is run through
`subprocess.run` with `shell=True`, stdin disconnected and a hard timeout
of 30 seconds; a timeout produces the warning-marked message naming the
command, and any other execution failure is returned as a warning-marked
message rather than raised (the function is total and returns a string in
every case). -/
theorem claim_c7_shell_execution (sys : Sys) (cwd command : String)
    (h : ¬ (['c', 'd', ' '] <+: stripList command.toList ∨
        stripList command.toList = ['c', 'd'])) :
    (execute_command sys cwd command).calls =
      [SysCall.subprocess
        { cmd := (stripList command.toList).asString, shell := true, text := true,
          capture_output := true, timeout := 30, stdin_devnull := true }] ∧
    (sys.run
        { cmd := (stripList command.toList).asString, shell := true, text := true,
          capture_output := true, timeout := 30, stdin_devnull := true } = .timedOut →
      (execute_command sys cwd command).message =
          "⚠️ Command \x27" ++ (stripList command.toList).asString ++
            "\x27 timed out (waiting for input?)" ∧
        ("⚠️" : String).toList <+: (execute_command sys cwd command).message.toList) ∧
    (∀ e, sys.run
        { cmd := (stripList command.toList).asString, shell := true, text := true,
          capture_output := true, timeout := 30, stdin_devnull := true } = .failed e →
      (execute_command sys cwd command).message = "⚠️ Execution error: " ++ e ∧
        ("⚠️" : String).toList <+: (execute_command sys cwd command).message.toList) := by
  have hpre : ['c', 'd', ' '].isPrefixOf (stripList command.toList) = false := by
    rcases hb : ['c', 'd', ' '].isPrefixOf (stripList command.toList) with _ | _
    · rfl
    · exact absurd (Or.inl (List.isPrefixOf_iff_prefix.1 hb)) h
  simp only [execute_command, hpre, Bool.false_eq_true, if_false]
  refine ⟨?_, ?_, ?_⟩
  · split <;> rfl
  · intro ht
    rw [ht]
    refine ⟨rfl, ?_⟩
    show ("⚠️" : String).toList <+:
      ("⚠️ Command \x27" ++ (stripList command.toList).asString ++
        "\x27 timed out (waiting for input?)").toList
    have : ("⚠️ Command \x27" ++ (stripList command.toList).asString ++
        "\x27 timed out (waiting for input?)").toList =
        ("⚠️" : String).toList ++ (" Command \x27" ++ (stripList command.toList).asString ++
          "\x27 timed out (waiting for input?)").toList := rfl
    rw [this]
    exact List.prefix_append _ _
  · intro e he
    rw [he]
    refine ⟨rfl, ?_⟩
    show ("⚠️" : String).toList <+: ("⚠️ Execution error: " ++ e).toList
    have : ("⚠️ Execution error: " ++ e).toList =
        ("⚠️" : String).toList ++ (" Execution error: " ++ e).toList := rfl
    rw [this]
    exact List.prefix_append _ _

/-- Witness for C7: "sleep 60" under `sysDemo` (which times it out). -/
theorem claim_c7_shell_execution_witness :
    (¬ (['c', 'd', ' '] <+: stripList ("sleep 60" : String).toList ∨
        stripList ("sleep 60" : String).toList = ['c', 'd'])) ∧
    (execute_command sysDemo "/home/user" "sleep 60").message =
      "⚠️ Command \x27sleep 60\x27 timed out (waiting for input?)" :=
  ⟨by decide,
    ((claim_c7_shell_execution sysDemo "/home/user" "sleep 60" (by decide)).2.1 rfl).1⟩

/-! ## Claim C8: failed directory changes -/

/-- C8: when the `os.chdir` performed for a "cd "-prefixed command fails,
`execute_command` returns the warning-marked message wrapping the error and
the working directory is left unchanged. -/
theorem claim_c8_cd_failure (sys : Sys) (cwd command : String)
    (h : ['c', 'd', ' '] <+: stripList command.toList) (e : String)
    (he : sys.chdir cwd (sys.expanduser
        (stripList ((stripList command.toList).drop 3)).asString) = .error e) :
    (execute_command sys cwd command).message = "⚠️ Error in \x27cd\x27: " ++ e ∧
    ("⚠️" : String).toList <+: (execute_command sys cwd command).message.toList ∧
    (execute_command sys cwd command).cwd = cwd := by
  have hne := cd_target_ne_nil h
  have hpre : ['c', 'd', ' '].isPrefixOf (stripList command.toList) = true :=
    List.isPrefixOf_iff_prefix.2 h
  simp only [execute_command, hpre, if_true, hne, if_neg, if_false]
  rw [he]
  refine ⟨rfl, ?_, rfl⟩
  show ("⚠️" : String).toList <+: ("⚠️ Error in \x27cd\x27: " ++ e).toList
  have : ("⚠️ Error in \x27cd\x27: " ++ e).toList =
      ("⚠️" : String).toList ++ (" Error in \x27cd\x27: " ++ e).toList := rfl
  rw [this]
  exact List.prefix_append _ _

/-- Witness for C8: the spec's own scenario "cd /nonexistent" under
`sysDemo`; the directory stays "/home/user". -/
theorem claim_c8_cd_failure_witness :
    (['c', 'd', ' '] <+: stripList ("cd /nonexistent" : String).toList) ∧
    (execute_command sysDemo "/home/user" "cd /nonexistent").message =
      "⚠️ Error in \x27cd\x27: [Errno 2] No such file or directory: \x27/nonexistent\x27" ∧
    (execute_command sysDemo "/home/user" "cd /nonexistent").cwd = "/home/user" := by
  refine ⟨⟨"/nonexistent".toList, by decide⟩, ?_, ?_⟩
  · exact (claim_c8_cd_failure sysDemo "/home/user" "cd /nonexistent"
      ⟨"/nonexistent".toList, by decide⟩ _ rfl).1
  · exact (claim_c8_cd_failure sysDemo "/home/user" "cd /nonexistent"
      ⟨"/nonexistent".toList, by decide⟩ _ rfl).2.2

/-! ## Claim C10: an empty decision line defaults to "y" -/

/-- C10: at the decision prompt, an empty input line behaves exactly like
"y" (the `Prompt.ask` default): all proposed commands are executed, so an
empty decision never reaches selection parsing and is never treated as an
interrupt or a skip. -/
theorem claim_c10_empty_decision (sys : Sys) (cwd : String) (history : List Turn)
    (commands : List String) :
    decisionStep sys cwd history commands "" = decisionStep sys cwd history commands "y" ∧
    (decisionStep sys cwd history commands "").executed = commands := by
  refine ⟨rfl, ?_⟩
  show (finishExec sys cwd history commands).executed = commands
  unfold finishExec
  split
  · rename_i hc
    rw [hc]
  · rfl

/-! ## Claim C4: the interrupt branch of the decision phase -/

/-- C4 counterexample: the decision input is lowercased before being
appended, so the interrupt turn is not the user's input verbatim: typing
"Why?" appends "why?". -/
theorem claim_c4_counterexample :
    (decisionStep sysDemo "/tmp" [] ["ls"] "Why?").history =
      [{ role := "user", parts := ["why?"] }] ∧
    [({ role := "user", parts := ["why?"] } : Turn)] ≠
      [{ role := "user", parts := ["Why?"] }] := by
  exact ⟨rfl, by decide⟩

/-- C4 (amended): in the decision phase, when the (lowercased, with the
empty line defaulted to "y") input is none of y/yes/n/no and selection
parsing yields no indices, the orchestrator appends that lowercased input —
not the verbatim input — as a new user turn, executes nothing, synthesizes
no skip tool-output turn, and returns to the AI-working phase. -/
theorem claim_c4_interrupt (sys : Sys) (cwd : String) (history : List Turn)
    (commands : List String) (rawInput : String)
    (hy : ¬ (pyLower (if rawInput = "" then "y" else rawInput) = "y" ∨
        pyLower (if rawInput = "" then "y" else rawInput) = "yes"))
    (hn : ¬ (pyLower (if rawInput = "" then "y" else rawInput) = "n" ∨
        pyLower (if rawInput = "" then "y" else rawInput) = "no"))
    (hsel : parse_selection (pyLower (if rawInput = "" then "y" else rawInput))
        commands.length = []) :
    decisionStep sys cwd history commands rawInput =
      { history := history ++
          [{ role := "user",
             parts := [pyLower (if rawInput = "" then "y" else rawInput)] }],
        cwd := cwd, executed := [] } ∧
    step sys { phase := .awaitingDecision commands, history := history, cwd := cwd }
        (.decisionLine rawInput) =
      { phase := .aiWorking,
        history := history ++
          [{ role := "user",
             parts := [pyLower (if rawInput = "" then "y" else rawInput)] }],
        cwd := cwd } := by
  have h1 : decisionStep sys cwd history commands rawInput =
      { history := history ++
          [{ role := "user",
             parts := [pyLower (if rawInput = "" then "y" else rawInput)] }],
        cwd := cwd, executed := [] } := by
    simp only [decisionStep]
    rw [if_neg hy, if_neg hn, if_pos hsel]
  refine ⟨h1, ?_⟩
  simp only [step, h1]

/-- Witness for C4 (amended) at the input "show me" with one command. -/
theorem claim_c4_interrupt_witness :
    parse_selection (pyLower (if ("show me" : String) = "" then "y" else "show me"))
        (["ls"] : List String).length = [] ∧
    (decisionStep sysDemo "/tmp" [] ["ls"] "show me").history =
      [{ role := "user", parts := ["show me"] }] := by
  refine ⟨by decide, ?_⟩
  rw [(claim_c4_interrupt sysDemo "/tmp" [] ["ls"] "show me"
    (by decide) (by decide) (by decide)).1]
  rfl

/-! ## Claim C9: the conversation state is append-only -/

theorem finishExec_history_mono (sys : Sys) (cwd : String) (history : List Turn)
    (to_execute : List String) :
    history <+: (finishExec sys cwd history to_execute).history := by
  unfold finishExec
  split
  · exact List.prefix_rfl
  · exact List.prefix_append _ _

theorem decisionStep_history_mono (sys : Sys) (cwd : String) (history : List Turn)
    (commands : List String) (rawInput : String) :
    history <+: (decisionStep sys cwd history commands rawInput).history := by
  simp only [decisionStep]
  generalize pyLower (if rawInput = "" then "y" else rawInput) = k
  split
  · exact finishExec_history_mono sys cwd history commands
  · split
    · exact List.prefix_append _ _
    · split
      · exact List.prefix_append _ _
      · exact finishExec_history_mono sys cwd history _

theorem step_history_mono (sys : Sys) (st : MState) (e : Event) :
    st.history <+: (step sys st e).history := by
  rcases st with ⟨phase, history, cwd⟩
  rcases phase with _ | _ | commands | _ <;> rcases e with s | s | _ | s <;>
    simp only [step] <;> try exact List.prefix_rfl
  · split
    · exact List.prefix_rfl
    · exact List.prefix_append _ _
  · split
    · exact List.prefix_append _ _
    · exact List.prefix_append _ _
  · exact decisionStep_history_mono sys cwd history commands s

theorem run_history_mono (sys : Sys) (events : List Event) :
    ∀ st : MState, st.history <+: (run sys st events).history := by
  induction events with
  | nil => exact fun st => List.prefix_rfl
  | cons e es ih =>
    exact fun st => (step_history_mono sys st e).trans (ih (step sys st e))

/-- C9: across every sequence of transitions of the orchestrator loop, the
conversation is append-only (the starting history is a prefix of the
history after any run, so existing turns are never mutated, removed or
reordered), and the payload handed to the AI backend is built from the full
ordered history: the Gemini payload is the history itself, and the OpenAI
payload is the system instruction followed by one message per turn. -/
theorem claim_c9_append_only (sys : Sys) (st : MState) (events : List Event)
    (distro : String) (h : List Turn) :
    st.history <+: (run sys st events).history ∧
    gemini_history h = h ∧
    (openai_messages distro h).length = h.length + 1 := by
  refine ⟨run_history_mono sys events st, ?_, by simp [openai_messages]⟩
  exact List.map_id h

/-! ## The occurrence finder: correctness lemmas -/

theorem isPrefixOf_nil (pat : Chars) : pat.isPrefixOf ([] : Chars) = pat.isEmpty := by
  cases pat <;> rfl

/-- The recursive finder agrees with the declarative least-index search. -/
theorem findSub_eq_find? (pat s : Chars) : findSub pat s = firstOccurrence pat s := by
  unfold firstOccurrence
  induction s with
  | nil =>
    show (if pat.isEmpty then some 0 else none) = _
    have hr1 : List.range (([] : Chars).length + 1) = [0] := rfl
    rw [hr1]
    rcases hp : pat.isEmpty with _ | _
    · rw [if_neg (by simp [hp])]
      rw [List.find?_cons_of_neg _ (by simp [isPrefixOf_nil, hp])]
      rfl
    · rw [if_pos rfl]
      rw [List.find?_cons_of_pos _ (by simp [isPrefixOf_nil, hp])]
  | cons c rest ih =>
    show (if pat.isPrefixOf (c :: rest) then some 0
        else (findSub pat rest).map (· + 1)) = _
    rw [show (c :: rest).length + 1 = (rest.length + 1) + 1 by simp,
      List.range_succ_eq_map]
    rcases hp : pat.isPrefixOf (c :: rest) with _ | _
    · rw [if_neg (by simp [hp])]
      rw [List.find?_cons_of_neg _ (by simp [hp])]
      rw [List.find?_map]
      have hc : ((List.range (rest.length + 1)).find?
          ((fun i => pat.isPrefixOf ((c :: rest).drop i)) ∘ (· + 1))) =
          (List.range (rest.length + 1)).find? (fun i => pat.isPrefixOf (rest.drop i)) := by
        rfl
      rw [hc, ← ih]
    · rw [if_pos rfl]
      rw [List.find?_cons_of_pos _ (by simp [hp])]

/-- A successful find is an occurrence. -/
theorem findSub_occurs {pat : Chars} : ∀ {s : Chars} {i : Nat},
    findSub pat s = some i → pat <+: s.drop i := by
  intro s
  induction s with
  | nil =>
    intro i h
    simp only [findSub] at h
    split at h
    · rename_i hp
      cases h
      exact (List.isEmpty_iff.1 hp) ▸ List.nil_prefix
    · cases h
  | cons c rest ih =>
    intro i h
    simp only [findSub] at h
    split at h
    · rename_i hp
      cases h
      exact List.isPrefixOf_iff_prefix.1 hp
    · rcases hr : findSub pat rest with _ | i'
      · rw [hr] at h; cases h
      · rw [hr] at h
        cases h
        exact ih hr

/-- No find means no occurrence anywhere. -/
theorem findSub_none {pat : Chars} : ∀ {s : Chars},
    findSub pat s = none → ∀ i, ¬ pat <+: s.drop i := by
  intro s
  induction s with
  | nil =>
    intro h i hp
    simp only [findSub] at h
    split at h
    · cases h
    · rename_i hp2
      rw [List.drop_nil] at hp
      exact hp2 (List.isEmpty_iff.2 (List.prefix_nil.1 hp))
  | cons c rest ih =>
    intro h i hp
    simp only [findSub] at h
    split at h
    · cases h
    · rename_i hp0
      rcases hr : findSub pat rest with _ | i'
      · rcases i with _ | i
        · exact hp0 (by simpa [List.isPrefixOf_iff_prefix] using hp)
        · exact ih hr i hp
      · rw [hr] at h; cases h

/-- A find is the leftmost occurrence. -/
theorem findSub_min {pat : Chars} : ∀ {s : Chars} {i : Nat},
    findSub pat s = some i → ∀ j < i, ¬ pat <+: s.drop j := by
  intro s
  induction s with
  | nil =>
    intro i h j hj
    simp only [findSub] at h
    split at h
    · cases h; omega
    · cases h
  | cons c rest ih =>
    intro i h j hj hp
    simp only [findSub] at h
    split at h
    · cases h; omega
    · rename_i hp0
      rcases hr : findSub pat rest with _ | i'
      · rw [hr] at h; cases h
      · rw [hr] at h
        cases h
        rcases j with _ | j
        · exact hp0 (by simpa [List.isPrefixOf_iff_prefix] using hp)
        · exact ih hr j (by simp at hj; omega) hp

/-- An occurrence at the leftmost-candidate position is the find result. -/
theorem findSub_eq_some_of {pat : Chars} : ∀ {s : Chars} {k : Nat},
    (∀ i < k, ¬ pat <+: s.drop i) → pat <+: s.drop k → findSub pat s = some k := by
  intro s
  induction s with
  | nil =>
    intro k hmin hk
    rcases k with _ | k
    · rw [List.drop_nil] at hk
      simp only [findSub]
      rw [if_pos (List.isEmpty_iff.2 (List.prefix_nil.1 hk))]
    · rw [List.drop_nil] at hk
      have h0 : pat <+: List.drop 0 ([] : Chars) := by
        rw [List.drop_nil]; exact hk
      exact absurd h0 (hmin 0 (by omega))
  | cons c rest ih =>
    intro k hmin hk
    rcases k with _ | k
    · simp only [findSub]
      rw [List.drop_zero] at hk
      rw [if_pos (List.isPrefixOf_iff_prefix.2 hk)]
    · simp only [findSub]
      have h0 : ¬ (pat.isPrefixOf (c :: rest) = true) := by
        intro hp
        exact hmin 0 (by omega) (List.isPrefixOf_iff_prefix.1 hp)
      rw [if_neg h0]
      rw [ih (fun i hi => hmin (i + 1) (by omega)) hk]
      rfl

/-- The bounded search starting at position zero is the plain search. -/
theorem firstOccurrenceFrom_zero (pat s : Chars) :
    (List.range (s.length + 1)).find?
        (fun i => decide (0 ≤ i) && pat.isPrefixOf (s.drop i)) =
      (findSub pat s).map (· + 0) := by
  have hfun0 : (fun i => decide (0 ≤ i) && pat.isPrefixOf (s.drop i)) =
      (fun i => pat.isPrefixOf (s.drop i)) := by
    funext i; simp
  rw [hfun0, findSub_eq_find?]
  unfold firstOccurrence
  cases (List.range (s.length + 1)).find? (fun i => pat.isPrefixOf (s.drop i)) <;> simp

/-- The bounded search starting at `k` is the shifted plain search. -/
theorem firstOccurrenceFrom_eq (pat : Chars) : ∀ (s : Chars) (k : Nat), k ≤ s.length →
    firstOccurrenceFrom pat s k = (findSub pat (s.drop k)).map (· + k) := by
  unfold firstOccurrenceFrom
  intro s
  induction s with
  | nil =>
    intro k hk
    have hk0 : k = 0 := by simpa using hk
    subst hk0
    exact firstOccurrenceFrom_zero pat []
  | cons c rest ih =>
    intro k hk
    rcases k with _ | k
    · exact firstOccurrenceFrom_zero pat (c :: rest)
    · rw [show (c :: rest).length + 1 = (rest.length + 1) + 1 by simp,
        List.range_succ_eq_map]
      rw [List.find?_cons_of_neg _ (by simp)]
      rw [List.find?_map]
      have hfun : ((fun j => decide (k + 1 ≤ j) && pat.isPrefixOf ((c :: rest).drop j)) ∘
          (· + 1)) = (fun j => decide (k ≤ j) && pat.isPrefixOf (rest.drop j)) := by
        funext j
        simp only [Function.comp]
        congr 1
        simp [Nat.succ_le_succ_iff]
      have hk' : k ≤ rest.length := by
        simp only [List.length_cons] at hk
        omega
      rw [hfun, ih k hk']
      have hdrop : (c :: rest).drop (k + 1) = rest.drop k := rfl
      rw [hdrop]
      cases findSub pat (rest.drop k) with
      | none => rfl
      | some j' =>
        show some (j' + k + 1) = some (j' + (k + 1))
        rw [Nat.add_assoc]

/-- The explanation source `text.split(pat)[0]` is the text up to the first
occurrence of the literal (or the whole text). -/
theorem pySplitHead_eq_take (pat s : Chars) :
    pySplitHead pat s = s.take ((firstOccurrence pat s).getD s.length) := by
  unfold pySplitHead
  rw [← findSub_eq_find?]
  cases findSub pat s
  · exact (List.take_length s).symm
  · rfl

/-! ## Claim C2: the response parser against the spec's description -/

/-- C2 counterexample: the code takes the explanation from everything
before the first occurrence of the literal "```bash" even when that
occurrence does not open the matched block.  On this input the first
matching block starts at the second "```bash", so the claimed explanation
is "Hi ```bashy" while the code produces "Hi". -/
theorem claim_c2_counterexample :
    parse_ai_response "Hi ```bashy\n```bash\nls\n```" = ("Hi", ["ls"]) ∧
    parse_ai_response_spec "Hi ```bashy\n```bash\nls\n```" = ("Hi ```bashy", ["ls"]) ∧
    parse_ai_response "Hi ```bashy\n```bash\nls\n```" ≠
      parse_ai_response_spec "Hi ```bashy\n```bash\nls\n```" := by
  refine ⟨by decide, by decide, by decide⟩

/-- C2 (amended): `parse_ai_response` behaves as claimed except that the
explanation is everything before the first occurrence of the literal
"```bash" (trimmed) rather than before the start of the first matching
block; when no block matches, the whole trimmed text is the explanation and
the command list is empty, with no failure possible (the function is
total). -/
theorem claim_c2_parse_shape (text : String) :
    parse_ai_response text = parse_ai_response_amended text := by
  unfold parse_ai_response parse_ai_response_amended parseCore reMatch
  rw [← findSub_eq_find?]
  cases hi : findSub bashOpen text.toList with
  | none => rfl
  | some i =>
    dsimp only
    have hocc := findSub_occurs hi
    have hk : i + bashOpen.length ≤ text.toList.length := by
      have h1 := hocc.length_le
      rw [List.length_drop] at h1
      have h2 : bashOpen.length = 8 := rfl
      by_cases h3 : i ≤ text.toList.length
      · omega
      · exfalso
        rw [List.drop_eq_nil_of_le (by omega)] at hocc
        have h4 := hocc.length_le
        simp [h2] at h4
    rw [firstOccurrenceFrom_eq _ _ _ hk]
    cases hj : findSub closeFence (text.toList.drop (i + bashOpen.length)) with
    | none => rfl
    | some j' =>
      simp only [Option.map_some']
      have hb : (text.toList.take (j' + (i + bashOpen.length))).drop (i + bashOpen.length) =
          (text.toList.drop (i + bashOpen.length)).take j' := by
        rw [List.drop_take]
        congr 1
        omega
      rw [hb, pySplitHead_eq_take]

/-! ## Claim C6: parsing idempotence -/

/-- C6 counterexample, exhibiting both ways the claim fails within its
"at most one shell-tagged fenced block" scope.  First input: exactly one
fenced block, but a body line trims to a command beginning with three
backticks, so the rebuilt fence closes early at that command and reparsing
loses the second command.  Second input: no fenced block at all, but the
text contains the literal "```bash"; the rebuilt fence completes that
dangling literal into a match, so reparsing truncates the explanation. -/
theorem claim_c6_counterexample :
    (atMostOneBlock ("A\n```bash\nls\n   ```x\n```" : String).toList = true ∧
      parse_ai_response "A\n```bash\nls\n   ```x\n```" = ("A", ["ls", "```x"]) ∧
      parse_ai_response
          (reconstruct (parse_ai_response "A\n```bash\nls\n   ```x\n```").1
            (parse_ai_response "A\n```bash\nls\n   ```x\n```").2) =
        ("A", ["ls"]) ∧
      parse_ai_response
          (reconstruct (parse_ai_response "A\n```bash\nls\n   ```x\n```").1
            (parse_ai_response "A\n```bash\nls\n   ```x\n```").2) ≠
        parse_ai_response "A\n```bash\nls\n   ```x\n```") ∧
    (atMostOneBlock ("See ```bash fences" : String).toList = true ∧
      parse_ai_response "See ```bash fences" = ("See ```bash fences", []) ∧
      parse_ai_response
          (reconstruct (parse_ai_response "See ```bash fences").1
            (parse_ai_response "See ```bash fences").2) =
        ("See", []) ∧
      parse_ai_response
          (reconstruct (parse_ai_response "See ```bash fences").1
            (parse_ai_response "See ```bash fences").2) ≠
        parse_ai_response "See ```bash fences") := by
  refine ⟨⟨by decide, by decide, by decide, by decide⟩,
    ⟨by decide, by decide, by decide, by decide⟩⟩

/-- Decomposition of a prefix of an append: either the pattern fits inside
the left part, or it covers all of it and its remainder starts the right
part. -/
theorem prefix_append_split {pat xs ys : Chars} (h : pat <+: xs ++ ys) :
    pat <+: xs ∨ (xs <+: pat ∧ pat.drop xs.length <+: ys) := by
  obtain ⟨t, ht⟩ := h
  rcases List.append_eq_append_iff.1 ht with ⟨a, ha1, ha2⟩ | ⟨c, hc1, hc2⟩
  · exact Or.inl ⟨a, ha1.symm⟩
  · refine Or.inr ⟨⟨c, hc1.symm⟩, ?_⟩
    rw [hc1, List.drop_left]
    exact ⟨t, hc2.symm⟩

/-- A non-empty prefix determines the head. -/
theorem head?_eq_of_ne_nil {pat l : Chars} (h : pat <+: l) (hne : pat ≠ []) :
    l.head? = pat.head? := by
  obtain ⟨t, rfl⟩ := h
  exact List.head?_append_of_ne_nil _ hne

theorem mem_of_head?_eq {l : Chars} {a : Char} (h : l.head? = some a) : a ∈ l := by
  cases l with
  | nil => cases h
  | cons x t =>
    rw [List.head?_cons, Option.some.injEq] at h
    exact h ▸ List.mem_cons_self x t

/-- Occurrences inside a take are occurrences in the whole list. -/
theorem occurs_of_occurs_take {pat s : Chars} {n i : Nat}
    (h : pat <+: (s.take n).drop i) : pat <+: s.drop i := by
  rw [List.drop_take] at h
  exact h.trans (List.take_prefix _ _)

/-- Occurrences transport along a prefix. -/
theorem occurs_of_occurs_of_prefix {pat a b : Chars} {i : Nat} (hab : a <+: b)
    (h : pat <+: a.drop i) : pat <+: b.drop i := by
  rw [List.prefix_iff_eq_take.1 hab] at h
  exact occurs_of_occurs_take h

/-- The stripped list is a prefix of the left-stripped list. -/
theorem stripList_prefix_dropWhile (l : Chars) :
    stripList l <+: l.dropWhile Char.isWhitespace := by
  unfold stripList
  have h1 := List.dropWhile_suffix (l := (l.dropWhile Char.isWhitespace).reverse)
    (p := Char.isWhitespace)
  have h2 := List.reverse_prefix.2 h1
  rwa [List.reverse_reverse] at h2

/-- No occurrence in a list means no occurrence in its stripped form. -/
theorem noOccur_stripList {pat l : Chars} (h : ∀ i, ¬ pat <+: l.drop i) :
    ∀ i, ¬ pat <+: (stripList l).drop i := by
  intro i hp
  have h1 := occurs_of_occurs_of_prefix (stripList_prefix_dropWhile l) hp
  obtain ⟨u, hu⟩ := List.dropWhile_suffix (l := l) (p := Char.isWhitespace)
  have h2 : pat <+: l.drop (u.length + i) := by
    rw [← hu, List.drop_append]
    exact h1
  exact h (u.length + i) h2

/-- For 1 <= k <= 6, the k-th suffix of "```bash" does not start with a
newline. -/
theorem bashLit_drop_no_lf {k : Nat} (hk0 : 1 ≤ k) (hk6 : k ≤ 6) {Y : Chars}
    (hY : Y.head? = some '\n') (h : bashLit.drop k <+: Y) : False := by
  have hne : bashLit.drop k ≠ [] := by
    intro hnil
    have hc := congrArg List.length hnil
    simp [show bashLit.length = 7 from rfl] at hc
    omega
  have hhead := head?_eq_of_ne_nil h hne
  rw [hY] at hhead
  interval_cases k <;> exact absurd hhead (by decide)

/-- For 1 <= k <= 6, the k-th suffix of "```bash\n" does not start with a
newline. -/
theorem bashOpen_drop_no_lf {k : Nat} (hk0 : 1 ≤ k) (hk6 : k ≤ 6) {Y : Chars}
    (hY : Y.head? = some '\n') (h : bashOpen.drop k <+: Y) : False := by
  have hne : bashOpen.drop k ≠ [] := by
    intro hnil
    have hc := congrArg List.length hnil
    simp [show bashOpen.length = 8 from rfl] at hc
    omega
  have hhead := head?_eq_of_ne_nil h hne
  rw [hY] at hhead
  interval_cases k <;> exact absurd hhead (by decide)

/-- In the reconstruction, the literal "```bash" first occurs right after
the explanation (which contains no occurrence) and its newline. -/
theorem findSub_bashLit_reconstruct {E : Chars} (hE : ∀ i, ¬ bashLit <+: E.drop i)
    (z : Chars) :
    findSub bashLit (E ++ '\n' :: (bashOpen ++ z)) = some (E.length + 1) := by
  apply findSub_eq_some_of
  · intro i hi hp
    rcases Nat.lt_or_ge i E.length with hlt | hge
    · rw [List.drop_append_of_le_length (by omega)] at hp
      rcases prefix_append_split hp with h1 | ⟨h2, h3⟩
      · exact hE i h1
      · have hk1 : (E.drop i).length = E.length - i := List.length_drop ..
        have hk2 : E.length - i ≤ bashLit.length := by
          have hl := h2.length_le
          omega
        have hk7 : bashLit.length = 7 := rfl
        rw [hk1] at h3
        have hk0 : 1 ≤ E.length - i := by omega
        by_cases hke : E.length - i = 7
        · have hlen : (E.drop i).length = bashLit.length := by omega
          have heq := h2.eq_of_length hlen
          exact hE i (heq ▸ List.prefix_rfl)
        · obtain ⟨k, hkdef⟩ : ∃ k, E.length - i = k := ⟨_, rfl⟩
          rw [hkdef] at h3
          exact (bashLit_drop_no_lf (by omega) (by omega) List.head?_cons h3).elim
    · have hie : i = E.length := by omega
      subst hie
      rw [List.drop_append_of_le_length (by omega), List.drop_length,
        List.nil_append] at hp
      have hh := head?_eq_of_ne_nil hp (by decide)
      rw [List.head?_cons] at hh
      exact absurd hh (by decide)
  · have hr : (E ++ '\n' :: (bashOpen ++ z)) = (E ++ ['\n']) ++ (bashOpen ++ z) := by
      simp
    have hl : E.length + 1 = (E ++ ['\n']).length := by simp
    rw [hr, hl, List.drop_left]
    exact (show bashLit <+: bashOpen by decide).trans (List.prefix_append _ _)

/-- In the reconstruction, the regular expression's opener "```bash\n"
first occurs right after the explanation and its newline. -/
theorem findSub_bashOpen_reconstruct {E : Chars} (hE : ∀ i, ¬ bashLit <+: E.drop i)
    (z : Chars) :
    findSub bashOpen (E ++ '\n' :: (bashOpen ++ z)) = some (E.length + 1) := by
  apply findSub_eq_some_of
  · intro i hi hp
    rcases Nat.lt_or_ge i E.length with hlt | hge
    · rw [List.drop_append_of_le_length (by omega)] at hp
      rcases prefix_append_split hp with h1 | ⟨h2, h3⟩
      · exact hE i ((show bashLit <+: bashOpen by decide).trans h1)
      · have hk1 : (E.drop i).length = E.length - i := List.length_drop ..
        have hk2 : E.length - i ≤ bashOpen.length := by
          have hl := h2.length_le
          omega
        have hk8 : bashOpen.length = 8 := rfl
        rw [hk1] at h3
        have hk0 : 1 ≤ E.length - i := by omega
        by_cases hke8 : E.length - i = 8
        · have hlen : (E.drop i).length = bashOpen.length := by omega
          have heq := h2.eq_of_length hlen
          refine hE i ?_
          rw [heq]
          decide
        · by_cases hke7 : E.length - i = 7
          · have heq : E.drop i = bashOpen.take ((E.drop i).length) :=
              List.prefix_iff_eq_take.1 h2
            rw [hk1, hke7] at heq
            refine hE i ?_
            rw [heq]
            decide
          · obtain ⟨k, hkdef⟩ : ∃ k, E.length - i = k := ⟨_, rfl⟩
            rw [hkdef] at h3
            exact (bashOpen_drop_no_lf (by omega) (by omega) List.head?_cons h3).elim
    · have hie : i = E.length := by omega
      subst hie
      rw [List.drop_append_of_le_length (by omega), List.drop_length,
        List.nil_append] at hp
      have hh := head?_eq_of_ne_nil hp (by decide)
      rw [List.head?_cons] at hh
      exact absurd hh (by decide)
  · have hr : (E ++ '\n' :: (bashOpen ++ z)) = (E ++ ['\n']) ++ (bashOpen ++ z) := by
      simp
    have hl : E.length + 1 = (E ++ ['\n']).length := by simp
    rw [hr, hl, List.drop_left]
    exact List.prefix_append _ _

/-- For 1 <= k <= 3, the k-th suffix of "\n```" does not start with a
newline. -/
theorem closeFence_drop_no_lf {k : Nat} (hk0 : 1 ≤ k) (hk3 : k ≤ 3) {Y : Chars}
    (hY : Y.head? = some '\n') (h : closeFence.drop k <+: Y) : False := by
  have hne : closeFence.drop k ≠ [] := by
    intro hnil
    have hc := congrArg List.length hnil
    simp [show closeFence.length = 4 from rfl] at hc
    omega
  have hhead := head?_eq_of_ne_nil h hne
  rw [hY] at hhead
  interval_cases k <;> exact absurd hhead (by decide)

/-- The close fence cannot start inside a newline-free line followed by a
newline-headed remainder. -/
theorem no_close_in_line {c : Chars} (hnl : '\n' ∉ c) {Y : Chars}
    (hY : Y.head? = some '\n') :
    ∀ i < c.length, ¬ closeFence <+: c.drop i ++ Y := by
  intro i hi hp
  rcases prefix_append_split hp with h1 | ⟨h2, h3⟩
  · have hh := head?_eq_of_ne_nil h1 (by decide)
    have hmem : '\n' ∈ c.drop i := mem_of_head?_eq (by rw [hh]; rfl)
    exact hnl ((List.drop_subset i c) hmem)
  · have hk1 : (c.drop i).length = c.length - i := List.length_drop ..
    have hk2 : c.length - i ≤ closeFence.length := by
      have hl := h2.length_le
      omega
    have hc4 : closeFence.length = 4 := rfl
    rw [hk1] at h3
    have hk0 : 1 ≤ c.length - i := by omega
    by_cases hke : c.length - i = 4
    · have hlen : (c.drop i).length = closeFence.length := by omega
      have heq := h2.eq_of_length hlen
      have hmem : '\n' ∈ c.drop i := by
        rw [heq]
        decide
      exact hnl ((List.drop_subset i c) hmem)
    · obtain ⟨k, hkdef⟩ : ∃ k, c.length - i = k := ⟨_, rfl⟩
      rw [hkdef] at h3
      exact closeFence_drop_no_lf (by omega) (by omega) hY h3

/-- Three backticks cannot be a prefix of a non-backtick-prefixed line
followed by a newline-headed remainder. -/
theorem no_ticks_at_head {c : Chars} (ht : ¬ ticks3 <+: c) (hc : c ≠ [])
    {Y : Chars} (hY : Y.head? = some '\n') : ¬ ticks3 <+: c ++ Y := by
  intro hp
  rcases prefix_append_split hp with h1 | ⟨h2, h3⟩
  · exact ht h1
  · have hm : c.length ≤ 3 := by
      have hl := h2.length_le
      simpa using hl
    have hm1 : 1 ≤ c.length := List.length_pos.2 hc
    by_cases hme : c.length = 3
    · have heq := h2.eq_of_length (by rw [hme]; rfl)
      refine ht ?_
      rw [heq]
    · have hne : ticks3.drop c.length ≠ [] := by
        intro hnil
        have hcg := congrArg List.length hnil
        simp [show ticks3.length = 3 from rfl] at hcg
        omega
      have hhead := head?_eq_of_ne_nil h3 hne
      rw [hY] at hhead
      obtain ⟨k, hkdef⟩ : ∃ k, c.length = k := ⟨_, rfl⟩
      rw [hkdef] at hhead
      have hk2 : k ≤ 2 := by omega
      have hk1 : 1 ≤ k := by omega
      interval_cases k <;> exact absurd hhead (by decide)

/-- Inside the joined command lines (followed by the close fence), the
close fence occurs nowhere before the end, provided no command contains a
newline and no command after the first starts with three backticks. -/
theorem joinLines_no_close : ∀ (cmds : List Chars),
    (∀ c ∈ cmds, c ≠ [] ∧ '\n' ∉ c) →
    (∀ c ∈ cmds.tail, ¬ ticks3 <+: c) →
    ∀ i, i < (joinLines cmds).length →
      ¬ closeFence <+: (joinLines cmds ++ closeFence).drop i
  | [] => by
    intro _ _ i hi
    simp [joinLines] at hi
  | [c] => by
    intro hc _ i hi hp
    simp only [joinLines] at hi hp
    rw [List.drop_append_of_le_length (by omega)] at hp
    exact no_close_in_line (hc c (by simp)).2 (by rfl) i hi hp
  | c :: c' :: cs' => by
    intro hc ht i hi hp
    have hJ : joinLines (c :: c' :: cs') = c ++ '\n' :: joinLines (c' :: cs') := rfl
    rw [hJ] at hi hp
    have hassoc : (c ++ '\n' :: joinLines (c' :: cs')) ++ closeFence =
        c ++ '\n' :: (joinLines (c' :: cs') ++ closeFence) := by simp
    rw [hassoc] at hp
    rcases Nat.lt_trichotomy i c.length with hlt | heq | hgt
    · rw [List.drop_append_of_le_length (by omega)] at hp
      exact no_close_in_line (hc c (by simp)).2 List.head?_cons i hlt hp
    · subst heq
      rw [List.drop_append_of_le_length le_rfl, List.drop_length,
        List.nil_append] at hp
      have hticks : ticks3 <+: joinLines (c' :: cs') ++ closeFence := by
        have hc4 : closeFence = '\n' :: ticks3 := rfl
        rw [hc4] at hp
        exact (List.cons_prefix_cons.1 hp).2
      rcases cs' with _ | ⟨c'', t⟩
      · exact no_ticks_at_head (ht c' (by simp)) (hc c' (by simp)).1 (by rfl) hticks
      · have hassoc2 : joinLines (c' :: c'' :: t) ++ closeFence =
            c' ++ '\n' :: (joinLines (c'' :: t) ++ closeFence) := by
          rw [show joinLines (c' :: c'' :: t) = c' ++ '\n' :: joinLines (c'' :: t) from rfl]
          simp
        rw [hassoc2] at hticks
        exact no_ticks_at_head (ht c' (by simp)) (hc c' (by simp)).1
          List.head?_cons hticks
    · obtain ⟨i', rfl⟩ : ∃ i', i = c.length + 1 + i' :=
        ⟨i - (c.length + 1), by omega⟩
      have hdrop : (c ++ '\n' :: (joinLines (c' :: cs') ++ closeFence)).drop
          (c.length + 1 + i') = (joinLines (c' :: cs') ++ closeFence).drop i' := by
        rw [show c.length + 1 + i' = c.length + (1 + i') by omega, List.drop_append,
          Nat.add_comm 1 i', List.drop_succ_cons]
      rw [hdrop] at hp
      have hi' : i' < (joinLines (c' :: cs')).length := by
        rw [List.length_append, List.length_cons] at hi
        omega
      exact joinLines_no_close (c' :: cs')
        (fun x hx => hc x (List.mem_cons_of_mem _ hx))
        (fun x hx => ht x (List.mem_cons_of_mem _ hx)) i' hi' hp

/-- The first close fence after the rebuilt opener is exactly the appended
one. -/
theorem findSub_closeFence_joinLines (cmds : List Chars)
    (hc : ∀ c ∈ cmds, c ≠ [] ∧ '\n' ∉ c)
    (ht : ∀ c ∈ cmds.tail, ¬ ticks3 <+: c) :
    findSub closeFence (joinLines cmds ++ closeFence) =
      some (joinLines cmds).length := by
  apply findSub_eq_some_of
  · exact fun i hi => joinLines_no_close cmds hc ht i hi
  · rw [List.drop_left]

/-! ## Line splitting: unfolding equations and round trips -/

theorem splitlines_lf (rest : Chars) :
    splitlines ('\n' :: rest) = [] :: splitlines rest := rfl

theorem splitlines_crlf (rest : Chars) :
    splitlines ('\r' :: '\n' :: rest) = [] :: splitlines rest := rfl

theorem splitlines_cr (rest : Chars) (h : ∀ r, rest ≠ '\n' :: r) :
    splitlines ('\r' :: rest) = [] :: splitlines rest := by
  rw [splitlines.eq_def]
  split
  · rename_i heq
    simp at heq
  · rename_i heq
    rw [List.cons.injEq] at heq
    exact absurd heq.1 (by decide)
  · rename_i heq
    rw [List.cons.injEq] at heq
    exact absurd heq.2 (h _)
  · rename_i heq
    rw [List.cons.injEq] at heq
    rw [heq.2]
  · rename_i c2 rest2 hln hcrlf hcr heq
    rw [List.cons.injEq] at heq
    exact absurd heq.1.symm hcr

theorem splitlines_cons_other {c : Char} (h1 : c ≠ '\n') (h2 : c ≠ '\r')
    (rest : Chars) :
    splitlines (c :: rest) =
      match splitlines rest with
      | [] => [[c]]
      | l :: ls => (c :: l) :: ls := by
  rw [splitlines.eq_def]
  split
  · rename_i heq
    simp at heq
  · rename_i heq
    rw [List.cons.injEq] at heq
    exact absurd heq.1 h1
  · rename_i heq
    rw [List.cons.injEq] at heq
    exact absurd heq.1 h2
  · rename_i heq
    rw [List.cons.injEq] at heq
    exact absurd heq.1 h2
  · rename_i heq
    rw [List.cons.injEq] at heq
    obtain ⟨rfl, rfl⟩ := heq
    rfl

/-- Lines produced by `splitlines` contain no line terminators. -/
theorem splitlines_no_break (s : Chars) : ∀ l ∈ splitlines s, '\n' ∉ l ∧ '\r' ∉ l := by
  induction s using splitlines.induct with
  | case1 =>
    intro l hl
    simp [splitlines] at hl
  | case2 rest ih =>
    intro l hl
    rw [splitlines_lf] at hl
    rcases List.mem_cons.1 hl with rfl | hl
    · simp
    · exact ih l hl
  | case3 rest ih =>
    intro l hl
    rw [splitlines_crlf] at hl
    rcases List.mem_cons.1 hl with rfl | hl
    · simp
    · exact ih l hl
  | case4 rest hr ih =>
    intro l hl
    rw [splitlines_cr rest (fun r hrr => hr r hrr)] at hl
    rcases List.mem_cons.1 hl with rfl | hl
    · simp
    · exact ih l hl
  | case5 c rest h1 h2 h3 hsp ih =>
    intro l hl
    rw [splitlines_cons_other (fun h => h1 h) (fun h => h3 h) rest, hsp] at hl
    rcases List.mem_cons.1 hl with rfl | hl
    · constructor
      · simp
        exact fun h => h1 h.symm
      · simp
        exact fun h => h3 h.symm
    · simp at hl
  | case6 c rest h1 h2 h3 l0 ls0 hsp ih =>
    intro l hl
    rw [splitlines_cons_other (fun h => h1 h) (fun h => h3 h) rest, hsp] at hl
    rcases List.mem_cons.1 hl with rfl | hl
    · have hmem : l0 ∈ splitlines rest := by
        rw [hsp]
        exact List.mem_cons_self _ _
      have hl0 := ih l0 hmem
      constructor
      · simp only [List.mem_cons]
        rintro (h | h)
        · exact h1 h.symm
        · exact hl0.1 h
      · simp only [List.mem_cons]
        rintro (h | h)
        · exact h3 h.symm
        · exact hl0.2 h
    · refine ih l ?_
      rw [hsp]
      exact List.mem_cons_of_mem _ hl

/-- Splitting a clean line followed by a newline peels exactly that line. -/
theorem splitlines_line_append : ∀ (c : Chars), '\n' ∉ c → '\r' ∉ c →
    ∀ s, splitlines (c ++ '\n' :: s) = c :: splitlines s
  | [], _, _, s => rfl
  | x :: t, h1, h2, s => by
    have hx1 : x ≠ '\n' := fun hx => h1 (by rw [hx]; exact List.mem_cons_self _ _)
    have hx2 : x ≠ '\r' := fun hx => h2 (by rw [hx]; exact List.mem_cons_self _ _)
    rw [List.cons_append, splitlines_cons_other hx1 hx2,
      splitlines_line_append t (fun h => h1 (List.mem_cons_of_mem _ h))
        (fun h => h2 (List.mem_cons_of_mem _ h)) s]

/-- A non-empty clean line splits into itself. -/
theorem splitlines_single : ∀ (c : Chars), c ≠ [] → '\n' ∉ c → '\r' ∉ c →
    splitlines c = [c]
  | [], h, _, _ => absurd rfl h
  | [x], _, h1, h2 => by
    have hx1 : x ≠ '\n' := fun hx => h1 (by rw [hx]; exact List.mem_cons_self _ _)
    have hx2 : x ≠ '\r' := fun hx => h2 (by rw [hx]; exact List.mem_cons_self _ _)
    rw [splitlines_cons_other hx1 hx2, show splitlines ([] : Chars) = [] from rfl]
  | x :: y :: t, _, h1, h2 => by
    have hx1 : x ≠ '\n' := fun hx => h1 (by rw [hx]; exact List.mem_cons_self _ _)
    have hx2 : x ≠ '\r' := fun hx => h2 (by rw [hx]; exact List.mem_cons_self _ _)
    rw [splitlines_cons_other hx1 hx2,
      splitlines_single (y :: t) (by simp) (fun h => h1 (List.mem_cons_of_mem _ h))
        (fun h => h2 (List.mem_cons_of_mem _ h))]

/-- Splitting the newline-join of clean non-empty lines recovers them. -/
theorem splitlines_joinLines : ∀ (cmds : List Chars),
    (∀ c ∈ cmds, c ≠ [] ∧ '\n' ∉ c ∧ '\r' ∉ c) →
    splitlines (joinLines cmds) = cmds
  | [], _ => rfl
  | [c], h =>
    splitlines_single c (h c (by simp)).1 (h c (by simp)).2.1 (h c (by simp)).2.2
  | c :: c' :: t, h => by
    rw [show joinLines (c :: c' :: t) = c ++ '\n' :: joinLines (c' :: t) from rfl]
    rw [splitlines_line_append c (h c (by simp)).2.1 (h c (by simp)).2.2]
    rw [splitlines_joinLines (c' :: t) (fun x hx => h x (List.mem_cons_of_mem _ hx))]

/-! ## Stripping: characterization -/

theorem dropWhile_eq_self_of_head (p : Char → Bool) : ∀ {l : Chars},
    (∀ c, l.head? = some c → ¬ p c) → l.dropWhile p = l := by
  intro l h
  cases l with
  | nil => rfl
  | cons x t =>
    rw [List.dropWhile_cons, if_neg (by simpa using h x rfl)]

theorem head?_stripList_not_ws {l : Chars} {c : Char}
    (h : (stripList l).head? = some c) : ¬ c.isWhitespace := by
  have hne : stripList l ≠ [] := by
    intro hn
    rw [hn] at h
    cases h
  have heq := head?_eq_of_ne_nil (stripList_prefix_dropWhile l) hne
  rw [h] at heq
  exact head?_dropWhile_not _ _ heq

theorem strip_eq_self_of {l : Chars}
    (h1 : ∀ c, l.head? = some c → ¬ c.isWhitespace)
    (h2 : ∀ c, l.getLast? = some c → ¬ c.isWhitespace) : stripList l = l := by
  unfold stripList
  rw [dropWhile_eq_self_of_head _ h1]
  rw [dropWhile_eq_self_of_head _
    (fun c hc => h2 c (by rwa [List.head?_reverse] at hc))]
  exact List.reverse_reverse l

theorem stripList_idem (l : Chars) : stripList (stripList l) = stripList l :=
  strip_eq_self_of (fun _ hc => head?_stripList_not_ws hc)
    (fun _ hc => stripList_getLast_not_ws hc)

theorem mem_of_mem_stripList {l : Chars} {x : Char} (h : x ∈ stripList l) : x ∈ l :=
  (List.dropWhile_suffix _).sublist.subset
    ((stripList_prefix_dropWhile l).sublist.subset h)

/-- Appending a newline to a stripped list strips back to it. -/
theorem stripList_append_lf : ∀ {l : Chars}, stripList l = l →
    stripList (l ++ ['\n']) = l := by
  intro l h
  cases l with
  | nil => rfl
  | cons x t =>
    have hx : ¬ x.isWhitespace :=
      head?_stripList_not_ws (l := x :: t) (by rw [h]; rfl)
    have hlast : ∀ c, (x :: t).getLast? = some c → ¬ c.isWhitespace :=
      fun c hc => stripList_getLast_not_ws (l := x :: t) (by rw [h]; exact hc)
    have h1 : List.dropWhile Char.isWhitespace ((x :: t) ++ ['\n']) =
        (x :: t) ++ ['\n'] := by
      rw [List.cons_append, List.dropWhile_cons, if_neg (by simpa using hx)]
    have h2 : ((x :: t) ++ ['\n']).reverse = '\n' :: (x :: t).reverse := by simp
    have h3 : List.dropWhile Char.isWhitespace ('\n' :: (x :: t).reverse) =
        List.dropWhile Char.isWhitespace ((x :: t).reverse) := by
      rw [List.dropWhile_cons, if_pos (by decide)]
    have h4 : List.dropWhile Char.isWhitespace ((x :: t).reverse) = (x :: t).reverse :=
      dropWhile_eq_self_of_head _
        (fun c hc => hlast c (by rwa [List.head?_reverse] at hc))
    show ((List.dropWhile Char.isWhitespace ((x :: t) ++ ['\n'])).reverse.dropWhile
        Char.isWhitespace).reverse = x :: t
    rw [h1, h2, h3, h4, List.reverse_reverse]

/-! ## Joined command lines: endpoints -/

theorem joinLines_ne_nil {c : Chars} (hc : c ≠ []) : ∀ (cs : List Chars),
    joinLines (c :: cs) ≠ []
  | [] => hc
  | c' :: t => by
    rw [show joinLines (c :: c' :: t) = c ++ '\n' :: joinLines (c' :: t) from rfl]
    simp

theorem head?_joinLines {c : Chars} (hc : c ≠ []) (cs : List Chars) :
    (joinLines (c :: cs)).head? = c.head? := by
  cases cs with
  | nil => rfl
  | cons c' t =>
    rw [show joinLines (c :: c' :: t) = c ++ '\n' :: joinLines (c' :: t) from rfl]
    exact List.head?_append_of_ne_nil _ hc

theorem getLast?_joinLines : ∀ (cmds : List Chars), cmds ≠ [] →
    (∀ c ∈ cmds, c ≠ []) →
    ∃ c ∈ cmds, (joinLines cmds).getLast? = c.getLast?
  | [], h, _ => absurd rfl h
  | [c], _, _ => ⟨c, by simp, rfl⟩
  | c :: c' :: t, _, h => by
    obtain ⟨d, hd1, hd2⟩ := getLast?_joinLines (c' :: t) (by simp)
      (fun x hx => h x (List.mem_cons_of_mem _ hx))
    refine ⟨d, List.mem_cons_of_mem _ hd1, ?_⟩
    rw [show joinLines (c :: c' :: t) = c ++ '\n' :: joinLines (c' :: t) from rfl]
    rw [List.getLast?_append_of_ne_nil _ (by simp)]
    rw [show ('\n' :: joinLines (c' :: t)) = ['\n'] ++ joinLines (c' :: t) from rfl]
    rw [List.getLast?_append_of_ne_nil _ (joinLines_ne_nil (h c' (by simp)) t)]
    exact hd2

/-- The newline-join of stripped non-empty lines is itself stripped. -/
theorem stripList_joinLines (cmds : List Chars)
    (h : ∀ c ∈ cmds, c ≠ [] ∧ stripList c = c) :
    stripList (joinLines cmds) = joinLines cmds := by
  rcases cmds with _ | ⟨c, cs⟩
  · rfl
  · apply strip_eq_self_of
    · intro a ha
      rw [head?_joinLines (h c (by simp)).1] at ha
      exact head?_stripList_not_ws (by rw [(h c (by simp)).2]; exact ha)
    · intro a ha
      obtain ⟨d, hd1, hd2⟩ := getLast?_joinLines (c :: cs) (by simp)
        (fun x hx => (h x hx).1)
      rw [hd2] at ha
      exact stripList_getLast_not_ws (by rw [(h d hd1).2]; exact ha)

theorem map_stripList_id : ∀ {cmds : List Chars},
    (∀ c ∈ cmds, stripList c = c) → cmds.map stripList = cmds := by
  intro cmds
  induction cmds with
  | nil => intro _; rfl
  | cons c cs ih =>
    intro h
    rw [List.map_cons, h c (by simp), ih (fun x hx => h x (List.mem_cons_of_mem _ hx))]

theorem filter_ne_nil_id {cmds : List Chars} (h : ∀ c ∈ cmds, c ≠ []) :
    cmds.filter (· ≠ []) = cmds :=
  List.filter_eq_self.2 (fun a ha => by simpa using h a ha)

/-! ## The reconstruction parses back to its components -/

/-- The regular expression finds, in the reconstruction, exactly the
rebuilt fence and its body. -/
theorem reMatch_reconstruct (E : Chars) (cmds : List Chars)
    (hE : ∀ i, ¬ bashLit <+: E.drop i)
    (hc : ∀ c ∈ cmds, c ≠ [] ∧ '\n' ∉ c)
    (ht : ∀ c ∈ cmds.tail, ¬ ticks3 <+: c) :
    reMatch (reconstructCore E cmds) = some (E.length + 1, joinLines cmds) := by
  unfold reMatch reconstructCore
  rw [findSub_bashOpen_reconstruct hE]
  dsimp only
  have hdrop : (E ++ '\n' :: (bashOpen ++ (joinLines cmds ++ closeFence))).drop
      (E.length + 1 + bashOpen.length) = joinLines cmds ++ closeFence := by
    have h1 : E ++ '\n' :: (bashOpen ++ (joinLines cmds ++ closeFence)) =
        ((E ++ ['\n']) ++ bashOpen) ++ (joinLines cmds ++ closeFence) := by
      simp
    rw [h1, show E.length + 1 + bashOpen.length = ((E ++ ['\n']) ++ bashOpen).length
      from by simp; omega, List.drop_left]
  rw [hdrop, findSub_closeFence_joinLines cmds hc ht]
  dsimp only
  rw [List.take_left]

/-- Parsing the reconstruction of a well-shaped explanation and command
list gives them back. -/
theorem parseCore_reconstruct (E : Chars) (cmds : List Chars)
    (hE : ∀ i, ¬ bashLit <+: E.drop i)
    (hEs : stripList E = E)
    (hc : ∀ c ∈ cmds, c ≠ [] ∧ stripList c = c ∧ '\n' ∉ c ∧ '\r' ∉ c)
    (ht : ∀ c ∈ cmds.tail, ¬ ticks3 <+: c) :
    parseCore (reconstructCore E cmds) = (E, cmds) := by
  have hre := reMatch_reconstruct E cmds hE (fun c hcm => ⟨(hc c hcm).1, (hc c hcm).2.2.1⟩) ht
  unfold parseCore
  rw [hre]
  dsimp only
  rw [Prod.mk.injEq]
  constructor
  · unfold pySplitHead
    rw [show reconstructCore E cmds =
      E ++ '\n' :: (bashOpen ++ (joinLines cmds ++ closeFence)) from rfl]
    rw [findSub_bashLit_reconstruct hE]
    dsimp only
    rw [show E ++ '\n' :: (bashOpen ++ (joinLines cmds ++ closeFence)) =
      (E ++ ['\n']) ++ (bashOpen ++ (joinLines cmds ++ closeFence)) from by simp]
    rw [show E.length + 1 = (E ++ ['\n']).length from by simp]
    rw [List.take_left]
    exact stripList_append_lf hEs
  · unfold commandLines
    rw [stripList_joinLines cmds (fun c hcm => ⟨(hc c hcm).1, (hc c hcm).2.1⟩)]
    rw [splitlines_joinLines cmds
      (fun c hcm => ⟨(hc c hcm).1, (hc c hcm).2.2.1, (hc c hcm).2.2.2⟩)]
    rw [map_stripList_id (fun c hcm => (hc c hcm).2.1)]
    exact filter_ne_nil_id (fun c hcm => (hc c hcm).1)

/-! ## The parser's outputs are well-shaped -/

theorem parseCore_explanation_stripped (s : Chars) :
    stripList (parseCore s).1 = (parseCore s).1 := by
  unfold parseCore
  rcases hm : reMatch s with _ | ⟨i, body⟩ <;> dsimp only <;> exact stripList_idem _

/-- When a block matched, the explanation contains no occurrence of the
literal "```bash". -/
theorem parseCore_explanation_noOccur {s : Chars} {x : Nat × Chars}
    (hm : reMatch s = some x) :
    ∀ i, ¬ bashLit <+: ((parseCore s).1).drop i := by
  have hopen : ∃ i1, findSub bashOpen s = some i1 := by
    unfold reMatch at hm
    rcases hf : findSub bashOpen s with _ | i1
    · rw [hf] at hm
      cases hm
    · exact ⟨i1, rfl⟩
  obtain ⟨i1, hi1⟩ := hopen
  have hlit_occ : bashLit <+: s.drop i1 :=
    (show bashLit <+: bashOpen by decide).trans (findSub_occurs hi1)
  have hlit : ∃ i0, findSub bashLit s = some i0 := by
    rcases hf : findSub bashLit s with _ | i0
    · exact absurd hlit_occ (findSub_none hf i1)
    · exact ⟨i0, rfl⟩
  obtain ⟨i0, hi0⟩ := hlit
  unfold parseCore
  rw [hm]
  dsimp only
  unfold pySplitHead
  rw [hi0]
  apply noOccur_stripList
  intro j hp
  by_cases hj : j < i0
  · exact findSub_min hi0 j hj (occurs_of_occurs_take hp)
  · rw [List.drop_eq_nil_of_le (by
      rw [List.length_take]
      omega)] at hp
    exact absurd (List.prefix_nil.1 hp) (by decide)

/-- The parsed commands are non-empty, stripped, and contain no line
terminators. -/
theorem parseCore_commands_shape {s : Chars} :
    ∀ c ∈ (parseCore s).2, c ≠ [] ∧ stripList c = c ∧ '\n' ∉ c ∧ '\r' ∉ c := by
  unfold parseCore
  rcases hm : reMatch s with _ | ⟨i, body⟩
  · dsimp only
    intro c hcc
    simp at hcc
  · dsimp only
    intro c hcc
    unfold commandLines at hcc
    have hc1 := List.of_mem_filter hcc
    have hc2 := List.mem_of_mem_filter hcc
    obtain ⟨l, hl, rfl⟩ := List.mem_map.1 hc2
    have hl2 := splitlines_no_break _ l hl
    refine ⟨by simpa using hc1, stripList_idem l, ?_, ?_⟩
    · exact fun h => hl2.1 (mem_of_mem_stripList h)
    · exact fun h => hl2.2 (mem_of_mem_stripList h)

/-- C6 (amended): for every text containing at most one shell-tagged
fenced block, such that no parsed command after the first begins with
three backticks and, when no block matches, the trimmed text does not
contain the literal "```bash", parsing the reconstruction of the parse's
own output (explanation plus a rebuilt bash fence containing the parsed
commands) yields the same explanation and the same command list.  The two
extra conditions are exactly the failure modes exhibited by the
counterexample. -/
theorem claim_c6_idempotent (text : String)
    (hone : atMostOneBlock text.toList = true)
    (ht : ∀ c ∈ (parse_ai_response text).2.tail, ¬ ticks3 <+: c.toList)
    (hfree : reMatch text.toList = none →
      findSub bashLit (stripList text.toList) = none) :
    parse_ai_response
        (reconstruct (parse_ai_response text).1 (parse_ai_response text).2) =
      parse_ai_response text := by
  have hE : ∀ i, ¬ bashLit <+: ((parseCore text.toList).1).drop i := by
    cases hx : reMatch text.toList with
    | some x => exact parseCore_explanation_noOccur hx
    | none =>
      have hn := findSub_none (hfree hx)
      unfold parseCore
      rw [hx]
      exact hn
  have hEs := parseCore_explanation_stripped text.toList
  have hcm := parseCore_commands_shape (s := text.toList)
  have htc : ∀ c ∈ (parseCore text.toList).2.tail, ¬ ticks3 <+: c := by
    intro c hcc
    rcases hds : (parseCore text.toList).2 with _ | ⟨c0, cs0⟩
    · rw [hds] at hcc
      simp at hcc
    · rw [hds] at hcc
      have hmem : c.asString ∈ (parse_ai_response text).2.tail := by
        unfold parse_ai_response
        rw [hds]
        exact List.mem_map_of_mem _ hcc
      have h2 := ht _ hmem
      rwa [show (c.asString).toList = c from rfl] at h2
  have hkey := parseCore_reconstruct (parseCore text.toList).1
    (parseCore text.toList).2 hE hEs hcm htc
  unfold parse_ai_response reconstruct
  have h2 : (((parseCore text.toList).2.map List.asString).map String.toList) =
      (parseCore text.toList).2 := by
    rw [List.map_map]
    exact List.map_id _
  rw [show ((parseCore text.toList).1.asString.toList) =
    (parseCore text.toList).1 from rfl, h2]
  rw [show ((reconstructCore (parseCore text.toList).1
      (parseCore text.toList).2).asString).toList =
    reconstructCore (parseCore text.toList).1 (parseCore text.toList).2 from rfl]
  rw [hkey]

/-- Witness for C6 (amended), exercising both branches: the spec's own
example response (one matching block) and a block-free reply without the
"```bash" literal. -/
theorem claim_c6_idempotent_witness :
    (atMostOneBlock ("Do X.\n```bash\nls -la\npwd\n```" : String).toList = true ∧
      parse_ai_response
          (reconstruct (parse_ai_response "Do X.\n```bash\nls -la\npwd\n```").1
            (parse_ai_response "Do X.\n```bash\nls -la\npwd\n```").2) =
        parse_ai_response "Do X.\n```bash\nls -la\npwd\n```") ∧
    (atMostOneBlock ("All done!" : String).toList = true ∧
      parse_ai_response
          (reconstruct (parse_ai_response "All done!").1
            (parse_ai_response "All done!").2) =
        parse_ai_response "All done!") :=
  ⟨⟨by decide, claim_c6_idempotent "Do X.\n```bash\nls -la\npwd\n```"
      (by decide) (by decide) (by decide)⟩,
    ⟨by decide, claim_c6_idempotent "All done!"
      (by decide) (by decide) (by decide)⟩⟩

end Shellbuddy
